import Mathlib

set_option maxRecDepth 4000

/-!
# Verification of the zsling seqlock ring buffer

This development embeds the zsling SPMC seqlock ring buffer and settles the
spec claims against it. The repository splits into two layers:

* `src/src/lib.rs` — the Rust FFI wrapper (`RingBuffer::new/try_lock/reader`,
  `WriteGuard::push_back`, `SharedReader::pop_front`, `Drop for WriteGuard`).
  These definitions are translated from that source directly.
* the Zig core behind the `extern "C"` block (`new_buffer`, `lock_buffer`,
  `get_reader`, `push_back`, `pop_front`, `drop_wg`) — not present under
  `src/`; those definitions are modelled from the spec (sections 4.1-4.4 of
  spec.md), and carry doc comments starting `Modelled from the spec:`.

The embedding is sequential: every operation is one atomic step on explicit
state. Machine integers are `Nat` (the payload travels over the FFI as a
`u64`; byte arrays are `List Nat` with each byte `< 256`; the `transmute`
in the wrapper is the little-endian byte encoding — all round trips proved
here are independent of the endianness choice).
-/

/-- The fixed slot count of the ring buffer (`data: [Block; 256]` in lib.rs,
"capacity 256" in the spec). -/
abbrev capacity : Nat := 256

/-- One slot of the ring: a generation stamp and an 8-byte message, from
`struct Block { version: usize, message: [u8; 8] }` (lib.rs lines 75-80).
The message is kept in its `u64` wire form. -/
structure Block where
  version : Nat
  message : Nat
deriving Repr, DecidableEq

/-- The ring buffer state, from `struct RingBuffer` (lib.rs lines 59-66):
write cursor `index`, generation counter `version`, the writer-exclusion
flag `locked`, and 256 slots. The cache-line `Padded` wrappers carry no
logical content and are dropped. -/
structure RingBuffer where
  index : Nat
  version : Nat
  locked : Bool
  data : List Block
deriving Repr, DecidableEq

/-- A reader cursor, from `struct SharedReader` (lib.rs lines 92-98): a read
index and the generation the reader expects next. The non-owning buffer
pointer is modelled by passing the buffer state explicitly to `pop_front`. -/
structure SharedReader where
  index : Nat
  version : Nat
deriving Repr, DecidableEq

/-- Modelled from the spec: the Zig `new_buffer` behind the extern block —
spec 4.1 `create()` returns a zero-initialized buffer: `writeCursor = 0`,
`generation = 0`, `writeLocked = false`, all slot stamps 0. -/
def zig.new_buffer : RingBuffer :=
  { index := 0, version := 0, locked := false
    data := List.replicate capacity { version := 0, message := 0 } }

/-- Modelled from the spec: the Zig `lock_buffer` behind the extern block —
spec 4.1/4.4 `tryAcquireWriter()`: atomically transition `writeLocked` from
false to true; `some` is the Success tag (buffer now locked, guard handed
out), `none` is the AlreadyLocked outcome. -/
def zig.lock_buffer (rb : RingBuffer) : Option RingBuffer :=
  if rb.locked then none else some { rb with locked := true }

/-- Modelled from the spec: the Zig `drop_wg` behind the extern block —
spec 4.2 guard release: clears `writeLocked`, making the buffer lockable
again. -/
def zig.drop_wg (rb : RingBuffer) : RingBuffer :=
  { rb with locked := false }

/-- Modelled from the spec: the Zig `get_reader` behind the extern block —
spec 4.1 `createReader()`: a cursor initialized to the buffer's current
generation and the equivalent read index. -/
def zig.get_reader (rb : RingBuffer) : SharedReader :=
  { index := rb.index, version := rb.version }

/-- Modelled from the spec: the Zig `push_back` behind the extern block —
spec 4.2 `pushBack`: write the payload into slot `writeCursor mod capacity`,
stamp it with `generation + 1`, increment `generation` and `writeCursor`.
The payload write and the stamp store are one atomic step here; the
release-barrier ordering between them is a memory-model fact outside this
sequential embedding. -/
def zig.push_back (rb : RingBuffer) (val : Nat) : RingBuffer :=
  { index := rb.index + 1
    version := rb.version + 1
    locked := rb.locked
    data := rb.data.set (rb.index % capacity) { version := rb.version + 1, message := val } }

/-- Modelled from the spec: the Zig `pop_front` behind the extern block —
spec 4.3: read the stamp of slot `readIndex mod capacity` and compare it to
`expectedGeneration + 1`. Equal: claim the slot, return its payload, advance
both cursor fields by one. Less or equal to `expectedGeneration`: no new
data, return Empty, do not advance. Greater: the writer overran this reader;
resynchronize to `expectedGeneration = observedStamp - 1` and retry — the
spec notes the retry is then handled by the equal branch (no concurrent
writes intervene in this sequential embedding), so the overrun branch
returns that slot's payload with the cursor advanced to `observedStamp`. -/
def zig.pop_front (rb : RingBuffer) (sr : SharedReader) : Option Nat × SharedReader :=
  let b := rb.data.getD (sr.index % capacity) { version := 0, message := 0 }
  if b.version = sr.version + 1 then
    (some b.message, { index := sr.index + 1, version := sr.version + 1 })
  else if b.version ≤ sr.version then
    (none, sr)
  else
    (some b.message, { index := b.version, version := b.version })

/-- The `u64::MAX` sentinel the FFI uses to encode Empty (lib.rs line 227). -/
def u64Max : Nat := 2 ^ 64 - 1

/-- Modelled from the spec: the C ABI of `pop_front` (lib.rs line 129)
returns a bare `u64` with no separate discriminant, so the Zig side must
flatten its Message-or-Empty result into one `u64`: the payload itself on
success, `u64::MAX` for Empty — exactly the encoding the Rust wrapper
decodes at lib.rs lines 226-229. -/
def zig.pop_front_u64 (rb : RingBuffer) (sr : SharedReader) : Nat × SharedReader :=
  match zig.pop_front rb sr with
  | (some v, sr2) => (v, sr2)
  | (none, sr2) => (u64Max, sr2)

/-- The little-endian value of an 8-byte array, i.e. `transmute::<[u8; 8], u64>`
as used by `WriteGuard::push_back` (lib.rs line 195). -/
def bytesToU64 (bs : List Nat) : Nat :=
  bs.foldr (fun b acc => b % 256 + 256 * acc) 0

/-- The 8 little-endian bytes of a `u64`, i.e. `transmute::<u64, [u8; 8]>`
as used by `SharedReader::pop_front` (lib.rs line 228). -/
def u64ToBytes (n : Nat) : List Nat :=
  [n % 256, n / 256 % 256, n / 256 ^ 2 % 256, n / 256 ^ 3 % 256,
   n / 256 ^ 4 % 256, n / 256 ^ 5 % 256, n / 256 ^ 6 % 256, n / 256 ^ 7 % 256]

/-- `RingBuffer::new` (lib.rs lines 140-142): delegates to the core
`new_buffer`. -/
def RingBuffer.new : RingBuffer := zig.new_buffer

/-- `RingBuffer::try_lock` (lib.rs lines 153-163): calls the core
`lock_buffer` and matches the result tag — Success becomes `Except.ok`
carrying the guard (here: the locked buffer state), anything else becomes
`Except.error ()`. -/
def RingBuffer.try_lock (rb : RingBuffer) : Except Unit RingBuffer :=
  match zig.lock_buffer rb with
  | some rb2 => Except.ok rb2
  | none => Except.error ()

/-- `RingBuffer::reader` (lib.rs lines 175-177): delegates to the core
`get_reader`. -/
def RingBuffer.reader (rb : RingBuffer) : SharedReader := zig.get_reader rb

/-- `WriteGuard::push_back` (lib.rs lines 193-197): transmutes the 8-byte
value to a `u64` and calls the core `push_back`. -/
def WriteGuard.push_back (rb : RingBuffer) (val : List Nat) : RingBuffer :=
  zig.push_back rb (bytesToU64 val)

/-- `SharedReader::pop_front` (lib.rs lines 223-231): calls the core
`pop_front` and decodes the returned `u64` — `u64::MAX` becomes `None`,
anything else is transmuted back into the 8-byte message. -/
def SharedReader.pop_front (rb : RingBuffer) (sr : SharedReader) :
    Option (List Nat) × SharedReader :=
  let r := zig.pop_front_u64 rb sr
  if r.1 = u64Max then (none, r.2) else (some (u64ToBytes r.1), r.2)

/-- The buffer obtained from a fresh one by the given sequence of core-level
appends. -/
def bufferAfter (vals : List Nat) : RingBuffer :=
  vals.foldl zig.push_back zig.new_buffer

/-- The buffer obtained from a fresh one by the given sequence of Rust-level
`push_back` calls on 8-byte messages. -/
def mkBuf (msgs : List (List Nat)) : RingBuffer :=
  msgs.foldl WriteGuard.push_back RingBuffer.new

/-- Iterate `SharedReader.pop_front` against a fixed buffer, collecting the
results of each pop in order. -/
def popN (rb : RingBuffer) (sr : SharedReader) : Nat → List (Option (List Nat)) × SharedReader
  | 0 => ([], sr)
  | k + 1 =>
    let r := SharedReader.pop_front rb sr
    let rest := popN rb r.2 k
    (r.1 :: rest.1, rest.2)

/-- A well-formed 8-byte message: 8 bytes, each below 256. -/
def validMsg (m : List Nat) : Prop := m.length = 8 ∧ ∀ b ∈ m, b < 256

instance (m : List Nat) : Decidable (validMsg m) := by
  unfold validMsg; infer_instance

/-- A message the FFI can transport faithfully: well-formed and distinct
from the all-0xFF array whose `u64` image is the Empty sentinel. -/
def okMsg (m : List Nat) : Prop := validMsg m ∧ m ≠ List.replicate 8 255

instance (m : List Nat) : Decidable (okMsg m) := by
  unfold okMsg; infer_instance

/-- The generation of the most recent append that landed in slot `j`
(for `j < capacity`, `j < n`, with `n` appends performed so far): the largest
`k < n` with `k ≡ j [MOD capacity]`. -/
def lastWrite (n j : Nat) : Nat := n - 1 - (n - 1 - j) % capacity

theorem pushList_index (M : List Nat) (rb : RingBuffer) :
    (M.foldl zig.push_back rb).index = rb.index + M.length := by
  induction M generalizing rb with
  | nil => simp
  | cons m R ih => simp [List.foldl_cons, ih, zig.push_back]; omega

theorem pushList_version (M : List Nat) (rb : RingBuffer) :
    (M.foldl zig.push_back rb).version = rb.version + M.length := by
  induction M generalizing rb with
  | nil => simp
  | cons m R ih => simp [List.foldl_cons, ih, zig.push_back]; omega

theorem pushList_locked (M : List Nat) (rb : RingBuffer) :
    (M.foldl zig.push_back rb).locked = rb.locked := by
  induction M generalizing rb with
  | nil => simp
  | cons m R ih => simp [List.foldl_cons, ih, zig.push_back]

theorem pushList_data_length (M : List Nat) (rb : RingBuffer) :
    (M.foldl zig.push_back rb).data.length = rb.data.length := by
  induction M generalizing rb with
  | nil => simp
  | cons m R ih => simp [List.foldl_cons, ih, zig.push_back]

theorem bufferAfter_index (M : List Nat) : (bufferAfter M).index = M.length := by
  simp [bufferAfter, pushList_index, zig.new_buffer]

theorem bufferAfter_version (M : List Nat) : (bufferAfter M).version = M.length := by
  simp [bufferAfter, pushList_version, zig.new_buffer]

theorem bufferAfter_data_length (M : List Nat) :
    (bufferAfter M).data.length = capacity := by
  simp [bufferAfter, pushList_data_length, zig.new_buffer]

theorem bufferAfter_append_one (M : List Nat) (m : Nat) :
    bufferAfter (M ++ [m]) = zig.push_back (bufferAfter M) m := by
  simp [bufferAfter, List.foldl_append]

/-- Content of slot `j` of the buffer reached by the append sequence `M`:
untouched (stamp 0) when fewer than `j + 1` appends happened, otherwise the
stamp and payload of the most recent append that landed in slot `j`. -/
theorem bufferAfter_slot (M : List Nat) (j : Nat) (hj : j < capacity) :
    (bufferAfter M).data.getD j { version := 0, message := 0 } =
      if j < M.length then
        { version := lastWrite M.length j + 1
          message := M.getD (lastWrite M.length j) 0 }
      else { version := 0, message := 0 } := by
  induction M using List.reverseRecOn with
  | nil =>
    simp [bufferAfter, zig.new_buffer, List.getD_eq_getElem?_getD,
      List.getElem?_replicate, hj]
  | append_singleton M m ih =>
    rw [bufferAfter_append_one]
    have hj256 : j < 256 := hj
    have hlen : (bufferAfter M).data.length = capacity := bufferAfter_data_length M
    have hidx : (bufferAfter M).index = M.length := bufferAfter_index M
    have hver : (bufferAfter M).version = M.length := bufferAfter_version M
    by_cases hcase : j = M.length % capacity
    · have hset : (zig.push_back (bufferAfter M) m).data.getD j
          { version := 0, message := 0 } =
          { version := M.length + 1, message := m } := by
        simp [zig.push_back, hidx, hver, List.getD_eq_getElem?_getD, hcase,
          List.getElem?_set_self (by rw [hlen]; exact Nat.mod_lt _ (by decide) :
            M.length % capacity < (bufferAfter M).data.length)]
      rw [hset]
      have hjlt : j < M.length + 1 := by
        subst hcase; exact Nat.lt_succ_of_le (Nat.mod_le _ _)
      have hlw : lastWrite (M.length + 1) j = M.length := by
        subst hcase
        simp only [lastWrite, capacity]
        omega
      have hget : (M ++ [m]).getD M.length 0 = m := by
        simp [List.getD_eq_getElem?_getD, List.getElem?_append_right (Nat.le_refl M.length)]
      simp [hjlt, hlw, hget]
    · have hset : (zig.push_back (bufferAfter M) m).data.getD j
          { version := 0, message := 0 } =
          (bufferAfter M).data.getD j { version := 0, message := 0 } := by
        simp [zig.push_back, hidx, hver, List.getD_eq_getElem?_getD,
          List.getElem?_set_ne (fun h => hcase h.symm)]
      rw [hset, ih]
      by_cases hjn : j < M.length
      · have hjn1 : j < M.length + 1 := Nat.lt_succ_of_lt hjn
        have hlw : lastWrite (M.length + 1) j = lastWrite M.length j := by
          simp only [lastWrite, capacity] at hcase ⊢
          omega
        have hlt : lastWrite M.length j < M.length := by
          simp only [lastWrite, capacity]
          omega
        simp [hjn, hjn1, hlw, List.getD_eq_getElem?_getD,
          List.getElem?_append_left hlt]
      · have hjn1 : ¬ j < M.length + 1 := by
          simp only [capacity] at hcase hj
          omega
        simp [hjn, hjn1]

/-- A reader that is at most `capacity` generations behind sees exactly the
next unconsumed message (or Empty when fully caught up): core-level pop. -/
theorem pop_under (M : List Nat) (v : Nat) (hv : v ≤ M.length)
    (hc : M.length - v ≤ capacity) :
    zig.pop_front (bufferAfter M) { index := v, version := v } =
      if v < M.length then
        (some (M.getD v 0), { index := v + 1, version := v + 1 })
      else (none, { index := v, version := v }) := by
  have hj : v % capacity < capacity := Nat.mod_lt _ (by decide)
  have hs := bufferAfter_slot M (v % capacity) hj
  simp only [zig.pop_front, hs]
  by_cases hvn : v < M.length
  · have hjn : v % capacity < M.length := Nat.lt_of_le_of_lt (Nat.mod_le _ _) hvn
    have hlw : lastWrite M.length (v % capacity) = v := by
      simp only [lastWrite, capacity] at hc ⊢
      omega
    simp [hjn, hlw, hvn]
  · have hveq : v = M.length := Nat.le_antisymm hv (Nat.le_of_not_lt hvn)
    by_cases hjn : v % capacity < M.length
    · have hle : lastWrite M.length (v % capacity) + 1 ≤ v := by
        simp only [lastWrite, capacity] at hjn ⊢
        omega
      have hne : ¬ lastWrite M.length (v % capacity) + 1 = v + 1 := by omega
      simp [hjn, hne, hle, hvn]
    · simp [hjn, hvn]

/-- A reader that is more than `capacity` generations behind is overrun: the
pop resynchronizes to the oldest generation the ring still holds — the stamp
`k + 1` observed in its slot satisfies `k ≥ length - capacity` — returns that
payload and leaves the cursor at generation `k + 1`: core-level pop. -/
theorem pop_over (M : List Nat) (v : Nat) (hc : capacity < M.length - v) :
    zig.pop_front (bufferAfter M) { index := v, version := v } =
      (some (M.getD (lastWrite M.length (v % capacity)) 0),
        { index := lastWrite M.length (v % capacity) + 1
          version := lastWrite M.length (v % capacity) + 1 }) ∧
    M.length - capacity ≤ lastWrite M.length (v % capacity) ∧
    lastWrite M.length (v % capacity) < M.length ∧
    v < lastWrite M.length (v % capacity) := by
  have hj : v % capacity < capacity := Nat.mod_lt _ (by decide)
  have hs := bufferAfter_slot M (v % capacity) hj
  have hjn : v % capacity < M.length := by
    have := Nat.mod_le v capacity
    simp only [capacity] at hc this ⊢
    omega
  have hrange : M.length - capacity ≤ lastWrite M.length (v % capacity) ∧
      lastWrite M.length (v % capacity) < M.length ∧
      v < lastWrite M.length (v % capacity) := by
    simp only [lastWrite, capacity] at hc ⊢
    omega
  refine ⟨?_, hrange.1, hrange.2.1, hrange.2.2⟩
  have hne : ¬ lastWrite M.length (v % capacity) + 1 = v + 1 := by omega
  have hgt : ¬ lastWrite M.length (v % capacity) + 1 ≤ v := by omega
  simp only [zig.pop_front, hs, hjn, if_true]
  simp [hne, hgt]

/-- Structure of an arbitrary core-level pop on a reachable buffer from a
synced cursor: a successful pop returns the payload of some generation at or
after the cursor and moves the cursor just past it; an Empty pop leaves the
cursor unchanged. -/
theorem pop_cases (M : List Nat) (v : Nat) :
    (∀ x sr2, zig.pop_front (bufferAfter M) { index := v, version := v } = (some x, sr2) →
      ∃ i, v ≤ i ∧ i < M.length ∧ x = M.getD i 0 ∧
        sr2 = { index := i + 1, version := i + 1 }) ∧
    (∀ sr2, zig.pop_front (bufferAfter M) { index := v, version := v } = (none, sr2) →
      sr2 = { index := v, version := v }) := by
  have hj : v % capacity < capacity := Nat.mod_lt _ (by decide)
  have hs := bufferAfter_slot M (v % capacity) hj
  by_cases hjn : v % capacity < M.length
  · have hkrange : lastWrite M.length (v % capacity) < M.length := by
      simp only [lastWrite, capacity] at hjn ⊢
      omega
    constructor
    · intro x sr2 hpop
      simp only [zig.pop_front, hs, hjn, if_true] at hpop
      split at hpop
      · rename_i heq
        simp only [Prod.mk.injEq, Option.some.injEq] at hpop
        exact ⟨v, Nat.le_refl v, by omega, hpop.1.symm.trans (by congr 1; omega),
          hpop.2.symm⟩
      · split at hpop
        · simp at hpop
        · rename_i hne hgt
          simp only [Prod.mk.injEq, Option.some.injEq] at hpop
          exact ⟨lastWrite M.length (v % capacity), by omega, hkrange,
            hpop.1.symm, hpop.2.symm⟩
    · intro sr2 hpop
      simp only [zig.pop_front, hs, hjn, if_true] at hpop
      split at hpop
      · simp at hpop
      · split at hpop
        · simp only [Prod.mk.injEq] at hpop
          exact hpop.2.symm
        · simp at hpop
  · constructor
    · intro x sr2 hpop
      simp only [zig.pop_front, hs, hjn, if_false] at hpop
      simp at hpop
    · intro sr2 hpop
      simp only [zig.pop_front, hs, hjn, if_false] at hpop
      split at hpop
      · simp at hpop
      · split at hpop
        · simp only [Prod.mk.injEq] at hpop
          exact hpop.2.symm
        · rename_i hgt
          exact absurd (Nat.zero_le v) hgt

/-- The 8-byte little-endian round trip: decoding the `u64` image of a
well-formed message recovers the message. This is the composition of the two
`transmute`s in lib.rs lines 195 and 228. -/
theorem u64ToBytes_bytesToU64 (m : List Nat) (hm : validMsg m) :
    u64ToBytes (bytesToU64 m) = m := by
  obtain ⟨hlen, hb⟩ := hm
  match m, hlen with
  | [b0, b1, b2, b3, b4, b5, b6, b7], _ =>
    have h0 : b0 < 256 := hb b0 (by simp)
    have h1 : b1 < 256 := hb b1 (by simp)
    have h2 : b2 < 256 := hb b2 (by simp)
    have h3 : b3 < 256 := hb b3 (by simp)
    have h4 : b4 < 256 := hb b4 (by simp)
    have h5 : b5 < 256 := hb b5 (by simp)
    have h6 : b6 < 256 := hb b6 (by simp)
    have h7 : b7 < 256 := hb b7 (by simp)
    simp only [bytesToU64, List.foldr_cons, List.foldr_nil, u64ToBytes,
      Nat.mod_eq_of_lt h0, Nat.mod_eq_of_lt h1, Nat.mod_eq_of_lt h2,
      Nat.mod_eq_of_lt h3, Nat.mod_eq_of_lt h4, Nat.mod_eq_of_lt h5,
      Nat.mod_eq_of_lt h6, Nat.mod_eq_of_lt h7, List.cons.injEq, and_true]
    refine ⟨?_, ?_, ?_, ?_, ?_, ?_, ?_, ?_⟩ <;> omega

/-- The decoded form of the Empty sentinel is the all-0xFF message. -/
theorem u64ToBytes_sentinel : u64ToBytes u64Max = List.replicate 8 255 := by decide

/-- A transportable message never collides with the Empty sentinel. -/
theorem bytesToU64_ne_sentinel (m : List Nat) (hm : okMsg m) : bytesToU64 m ≠ u64Max := by
  obtain ⟨hval, hne⟩ := hm
  intro h
  apply hne
  have hrt := u64ToBytes_bytesToU64 m hval
  rw [h, u64ToBytes_sentinel] at hrt
  exact hrt.symm

theorem mkBuf_eq (msgs : List (List Nat)) :
    mkBuf msgs = bufferAfter (msgs.map bytesToU64) := by
  simp only [mkBuf, bufferAfter, RingBuffer.new, List.foldl_map]
  rfl

theorem getD_map_bytes (msgs : List (List Nat)) (v : Nat) (hv : v < msgs.length) :
    (msgs.map bytesToU64).getD v 0 = bytesToU64 (msgs.getD v []) := by
  simp [List.getD_eq_getElem?_getD, List.getElem?_map, List.getElem?_eq_getElem hv]

/-- Rust-level window pop: a reader at most `capacity` behind, on a buffer of
transportable messages, pops exactly the next message (or Empty at the end). -/
theorem rust_pop_under (msgs : List (List Nat)) (v : Nat) (hv : v ≤ msgs.length)
    (hc : msgs.length - v ≤ capacity) (hok : ∀ m ∈ msgs, okMsg m) :
    SharedReader.pop_front (mkBuf msgs) { index := v, version := v } =
      if v < msgs.length then
        (some (msgs.getD v []), { index := v + 1, version := v + 1 })
      else (none, { index := v, version := v }) := by
  have hcore := pop_under (msgs.map bytesToU64) v (by simpa using hv) (by simpa using hc)
  rw [mkBuf_eq]
  by_cases hvn : v < msgs.length
  · have hmem : msgs.getD v [] ∈ msgs := by
      have : msgs[v]? = some (msgs.getD v []) := by
        simp [List.getD_eq_getElem?_getD, List.getElem?_eq_getElem hvn]
      exact List.getElem?_mem this
    have hne : bytesToU64 (msgs.getD v []) ≠ u64Max :=
      bytesToU64_ne_sentinel _ (hok _ hmem)
    have hrt : u64ToBytes (bytesToU64 (msgs.getD v [])) = msgs.getD v [] :=
      u64ToBytes_bytesToU64 _ (hok _ hmem).1
    simp only [List.length_map, hvn, if_true, getD_map_bytes msgs v hvn] at hcore
    rw [if_pos hvn]
    simp only [SharedReader.pop_front, zig.pop_front_u64, hcore]
    rw [if_neg hne, hrt]
  · simp only [List.length_map, hvn, if_false] at hcore
    simp [SharedReader.pop_front, zig.pop_front_u64, hcore, hvn]

/-- One step of a writer/reader schedule against one shared buffer and one
cursor: a Rust-level `push_back` of an 8-byte message, or a Rust-level
`pop_front` on the cursor. -/
inductive QOp where
  | push : List Nat → QOp
  | pop : QOp
deriving Repr, DecidableEq

/-- Execution state of a schedule: the buffer, the cursor, and the results of
the pops performed so far, in order. -/
structure RunState where
  buf : RingBuffer
  cur : SharedReader
  outs : List (Option (List Nat))
deriving Repr, DecidableEq

def runStep (st : RunState) : QOp → RunState
  | QOp.push m => { st with buf := WriteGuard.push_back st.buf m }
  | QOp.pop =>
    let r := SharedReader.pop_front st.buf st.cur
    { st with cur := r.2, outs := st.outs ++ [r.1] }

def runOps (ops : List QOp) (st : RunState) : RunState := ops.foldl runStep st

/-- The messages a schedule pushes, in order. -/
def pushesOf : List QOp → List (List Nat)
  | [] => []
  | QOp.push m :: R => m :: pushesOf R
  | QOp.pop :: R => pushesOf R

/-- Holds when, starting from `p` pending messages, the number of messages
pushed but not yet popped never exceeds `capacity` during the schedule. -/
def okPend : Nat → List QOp → Bool
  | _, [] => true
  | p, QOp.push _ :: R => decide (p + 1 ≤ capacity) && okPend (p + 1) R
  | p, QOp.pop :: R => okPend (p - 1) R

/-- The claim's literal side condition: every pop of the schedule is preceded
by fewer than `capacity` pushes since the previous pop (counting from the
start of the schedule for the first pop). -/
def gapsOk : Nat → List QOp → Bool
  | _, [] => true
  | g, QOp.push _ :: R => gapsOk (g + 1) R
  | g, QOp.pop :: R => decide (g < capacity) && gapsOk 0 R

theorem mkBuf_append_one (msgs : List (List Nat)) (m : List Nat) :
    mkBuf (msgs ++ [m]) = WriteGuard.push_back (mkBuf msgs) m := by
  simp [mkBuf, List.foldl_append]

/-- Invariant of a schedule run from a window state (cursor synced at `v`,
at most `capacity` pending): the buffer ends as the full append sequence, the
cursor ends synced within a window, and the successful pops are exactly the
messages of generations `v` to the final cursor, in order. -/
theorem run_window (ops : List QOp) : ∀ (msgs : List (List Nat)) (v : Nat)
    (outs : List (Option (List Nat))),
    okPend (msgs.length - v) ops = true →
    v ≤ msgs.length → msgs.length - v ≤ capacity →
    (∀ m ∈ msgs, okMsg m) → (∀ m ∈ pushesOf ops, okMsg m) →
    ∃ v2 outs2, v ≤ v2 ∧ v2 ≤ (msgs ++ pushesOf ops).length ∧
      (msgs ++ pushesOf ops).length - v2 ≤ capacity ∧
      runOps ops { buf := mkBuf msgs, cur := { index := v, version := v }, outs := outs } =
        { buf := mkBuf (msgs ++ pushesOf ops),
          cur := { index := v2, version := v2 }, outs := outs2 } ∧
      outs2.filterMap id =
        outs.filterMap id ++ (((msgs ++ pushesOf ops).drop v).take (v2 - v)) := by
  induction ops with
  | nil =>
    intro msgs v outs _ hv hc _ _
    exact ⟨v, outs, Nat.le_refl v, by simpa [pushesOf] using hv,
      by simpa [pushesOf] using hc, by simp [runOps, pushesOf], by simp⟩
  | cons op R ih =>
    intro msgs v outs hpend hv hc hokm hokp
    cases op with
    | push m =>
      have hpend2 : (msgs.length - v) + 1 ≤ capacity ∧
          okPend ((msgs.length - v) + 1) R = true := by
        simpa [okPend] using hpend
      have hstep : runOps (QOp.push m :: R)
          { buf := mkBuf msgs, cur := { index := v, version := v }, outs := outs } =
          runOps R
            { buf := mkBuf (msgs ++ [m]),
              cur := { index := v, version := v }, outs := outs } := by
        simp [runOps, runStep, mkBuf_append_one]
      have hokm2 : ∀ x ∈ msgs ++ [m], okMsg x := by
        intro x hx
        rcases List.mem_append.mp hx with h | h
        · exact hokm x h
        · rcases List.mem_singleton.mp h with rfl
          exact hokp x (by simp [pushesOf])
      have hokp2 : ∀ x ∈ pushesOf R, okMsg x := by
        intro x hx
        exact hokp x (by simp [pushesOf, hx])
      have hpend3 : okPend ((msgs ++ [m]).length - v) R = true := by
        have : (msgs ++ [m]).length - v = (msgs.length - v) + 1 := by
          simp; omega
        rw [this]; exact hpend2.2
      obtain ⟨v2, outs2, h1, h2, h3, h4, h5⟩ :=
        ih (msgs ++ [m]) v outs hpend3 (by simp; omega)
          (by simp; omega) hokm2 hokp2
      refine ⟨v2, outs2, h1, ?_, ?_, ?_, ?_⟩
      · simpa [pushesOf, List.append_assoc] using h2
      · simpa [pushesOf, List.append_assoc] using h3
      · rw [hstep]
        simpa [pushesOf, List.append_assoc] using h4
      · simpa [pushesOf, List.append_assoc] using h5
    | pop =>
      have hpop := rust_pop_under msgs v hv hc hokm
      have hpend2 : okPend (msgs.length - (v + 1)) R = true := by
        have : msgs.length - (v + 1) = (msgs.length - v) - 1 := by omega
        rw [this]
        simpa [okPend] using hpend
      by_cases hvn : v < msgs.length
      · rw [if_pos hvn] at hpop
        have hstep : runOps (QOp.pop :: R)
            { buf := mkBuf msgs, cur := { index := v, version := v }, outs := outs } =
            runOps R
              { buf := mkBuf msgs,
                cur := { index := v + 1, version := v + 1 },
                outs := outs ++ [some (msgs.getD v [])] } := by
          simp [runOps, runStep, hpop]
        obtain ⟨v2, outs2, h1, h2, h3, h4, h5⟩ :=
          ih msgs (v + 1) (outs ++ [some (msgs.getD v [])]) hpend2
            (by omega) (by omega) hokm
            (fun x hx => hokp x (by simp [pushesOf, hx]))
        refine ⟨v2, outs2, by omega, by simpa [pushesOf] using h2,
          by simpa [pushesOf] using h3, ?_, ?_⟩
        · rw [hstep]
          simpa [pushesOf] using h4
        · rw [h5]
          have hvP : v < (msgs ++ pushesOf (QOp.pop :: R)).length := by
            simp [pushesOf]; omega
          have hdrop : (msgs ++ pushesOf (QOp.pop :: R)).drop v =
              (msgs ++ pushesOf (QOp.pop :: R))[v] ::
                (msgs ++ pushesOf (QOp.pop :: R)).drop (v + 1) :=
            List.drop_eq_getElem_cons hvP
          have hgetv : (msgs ++ pushesOf (QOp.pop :: R))[v] = msgs.getD v [] := by
            have h1 : (msgs ++ pushesOf (QOp.pop :: R))[v]? = msgs[v]? :=
              List.getElem?_append_left hvn
            have h2 : msgs[v]? = some (msgs.getD v []) := by
              simp [List.getD_eq_getElem?_getD, List.getElem?_eq_getElem hvn]
            have h3 := List.getElem?_eq_getElem hvP
            rw [h1, h2] at h3
            exact (Option.some.injEq _ _ ▸ h3).symm
          have htake : v2 - v = (v2 - (v + 1)) + 1 := by omega
          simp only [pushesOf] at hdrop hgetv ⊢
          rw [hdrop, hgetv, htake, List.take_succ_cons]
          simp
      · have hveq : v = msgs.length := by omega
        rw [if_neg hvn] at hpop
        have hstep : runOps (QOp.pop :: R)
            { buf := mkBuf msgs, cur := { index := v, version := v }, outs := outs } =
            runOps R
              { buf := mkBuf msgs,
                cur := { index := v, version := v },
                outs := outs ++ [none] } := by
          simp [runOps, runStep, hpop]
        obtain ⟨v2, outs2, h1, h2, h3, h4, h5⟩ :=
          ih msgs v (outs ++ [none]) (by simpa [hveq] using hpend2)
            hv hc hokm (fun x hx => hokp x (by simp [pushesOf, hx]))
        refine ⟨v2, outs2, h1, by simpa [pushesOf] using h2,
          by simpa [pushesOf] using h3, ?_, ?_⟩
        · rw [hstep]
          simpa [pushesOf] using h4
        · rw [h5]
          simp [pushesOf]

/-- Draining: from a window state, `k` pops (with `k` at least the pending
count) return every pending message in order and end with the cursor caught
up. -/
theorem run_drain (k : Nat) : ∀ (msgs : List (List Nat)) (v : Nat)
    (outs : List (Option (List Nat))),
    v ≤ msgs.length → msgs.length - v ≤ capacity → msgs.length - v ≤ k →
    (∀ m ∈ msgs, okMsg m) →
    ∃ outs2, runOps (List.replicate k QOp.pop)
        { buf := mkBuf msgs, cur := { index := v, version := v }, outs := outs } =
      { buf := mkBuf msgs,
        cur := { index := msgs.length, version := msgs.length }, outs := outs2 } ∧
      outs2.filterMap id = outs.filterMap id ++ msgs.drop v := by
  induction k with
  | zero =>
    intro msgs v outs hv hc hk hokm
    have hveq : v = msgs.length := by omega
    subst hveq
    exact ⟨outs, by simp [runOps], by simp⟩
  | succ k ih =>
    intro msgs v outs hv hc hk hokm
    have hpop := rust_pop_under msgs v hv hc hokm
    rw [List.replicate_succ]
    by_cases hvn : v < msgs.length
    · rw [if_pos hvn] at hpop
      have hstep : runOps (QOp.pop :: List.replicate k QOp.pop)
          { buf := mkBuf msgs, cur := { index := v, version := v }, outs := outs } =
          runOps (List.replicate k QOp.pop)
            { buf := mkBuf msgs,
              cur := { index := v + 1, version := v + 1 },
              outs := outs ++ [some (msgs.getD v [])] } := by
        simp [runOps, runStep, hpop]
      obtain ⟨outs2, h1, h2⟩ :=
        ih msgs (v + 1) (outs ++ [some (msgs.getD v [])])
          (by omega) (by omega) (by omega) hokm
      refine ⟨outs2, by rw [hstep]; exact h1, ?_⟩
      rw [h2]
      have hdrop : msgs.drop v = msgs[v] :: msgs.drop (v + 1) :=
        List.drop_eq_getElem_cons hvn
      have hgetv : msgs[v] = msgs.getD v [] := by
        simp [List.getD_eq_getElem?_getD, List.getElem?_eq_getElem hvn]
      rw [hdrop, hgetv]
      simp
    · have hveq : v = msgs.length := by omega
      rw [if_neg hvn] at hpop
      have hstep : runOps (QOp.pop :: List.replicate k QOp.pop)
          { buf := mkBuf msgs, cur := { index := v, version := v }, outs := outs } =
          runOps (List.replicate k QOp.pop)
            { buf := mkBuf msgs,
              cur := { index := v, version := v },
              outs := outs ++ [none] } := by
        simp [runOps, runStep, hpop]
      obtain ⟨outs2, h1, h2⟩ :=
        ih msgs v (outs ++ [none]) hv hc (by omega) hokm
      refine ⟨outs2, by rw [hstep]; exact h1, ?_⟩
      rw [h2]
      simp

def msgA : List Nat := [0, 1, 2, 3, 4, 5, 6, 7]

def msgC : List Nat := [0, 1, 2, 3, 4, 5, 6, 14]

/-- C4: pushing `[0,1,2,3,4,5,6,7]`, `[0,1,2,3,4,5,6,7]`, `[0,1,2,3,4,5,6,14]`
in order onto an empty buffer and popping on a fresh cursor (created on the
empty buffer, as in `tests::it_works`) yields exactly those three values in
that order and then Empty. The writer guard only toggles the `locked` flag,
which `pop_front` and `push_back` never read, so it is elided here. -/
theorem concrete_push_pop_scenario :
    (popN (mkBuf [msgA, msgA, msgC]) (RingBuffer.reader RingBuffer.new) 4).1 =
      [some msgA, some msgA, some msgC, none] := by decide


/-- The other direction of the little-endian round trip, for values in `u64`
range. -/
theorem bytesToU64_u64ToBytes (n : Nat) (h : n < 2 ^ 64) :
    bytesToU64 (u64ToBytes n) = n := by
  simp only [u64ToBytes, bytesToU64, List.foldr_cons, List.foldr_nil]
  omega

theorem validMsg_u64ToBytes (n : Nat) : validMsg (u64ToBytes n) := by
  refine ⟨by simp [u64ToBytes], ?_⟩
  intro b hb
  simp only [u64ToBytes, List.mem_cons, List.not_mem_nil, or_false] at hb
  rcases hb with rfl | rfl | rfl | rfl | rfl | rfl | rfl | rfl <;> omega

theorem okMsg_u64ToBytes (n : Nat) (h : n < u64Max) : okMsg (u64ToBytes n) := by
  refine ⟨validMsg_u64ToBytes n, ?_⟩
  intro heq
  have h2 : n < 2 ^ 64 := by simp only [u64Max] at h; omega
  have h1 : bytesToU64 (u64ToBytes n) = n := bytesToU64_u64ToBytes n h2
  rw [heq] at h1
  have h3 : bytesToU64 (List.replicate 8 255) = u64Max := by decide
  rw [h3] at h1
  omega

theorem runOps_append (a b : List QOp) (st : RunState) :
    runOps (a ++ b) st = runOps b (runOps a st) := by
  simp [runOps, List.foldl_append]

theorem runOps_pushes (ms : List (List Nat)) (st : RunState) :
    runOps (ms.map QOp.push) st =
      { st with buf := ms.foldl WriteGuard.push_back st.buf } := by
  induction ms generalizing st with
  | nil => simp [runOps]
  | cons m R ih =>
    have h1 : runOps ((m :: R).map QOp.push) st =
        runOps (R.map QOp.push) { st with buf := WriteGuard.push_back st.buf m } := by
      simp [runOps, runStep]
    rw [h1, ih]
    simp

theorem mkBuf_append (t d : List (List Nat)) :
    mkBuf (t ++ d) = d.foldl WriteGuard.push_back (mkBuf t) := by
  simp [mkBuf, List.foldl_append]

/-- Rust-level overrun pop: when more than `capacity` transportable messages
are pending, `pop_front` returns the payload stamped in the awaited slot —
the generation `lastWrite` of the last append that landed there — and
resynchronizes the cursor past it. -/
theorem rust_pop_over (msgs : List (List Nat)) (v : Nat)
    (hc : capacity < msgs.length - v) (hok : ∀ m ∈ msgs, okMsg m) :
    SharedReader.pop_front (mkBuf msgs) { index := v, version := v } =
      (some (msgs.getD (lastWrite msgs.length (v % capacity)) []),
        { index := lastWrite msgs.length (v % capacity) + 1
          version := lastWrite msgs.length (v % capacity) + 1 }) := by
  obtain ⟨hcore, hk1, hk2, hk3⟩ :=
    pop_over (msgs.map bytesToU64) v (by simpa using hc)
  rw [List.length_map] at hcore hk1 hk2 hk3
  have hklt : lastWrite msgs.length (v % capacity) < msgs.length := hk2
  have hmem : msgs.getD (lastWrite msgs.length (v % capacity)) [] ∈ msgs := by
    have h1 : msgs[lastWrite msgs.length (v % capacity)]? =
        some (msgs.getD (lastWrite msgs.length (v % capacity)) []) := by
      simp [List.getD_eq_getElem?_getD, List.getElem?_eq_getElem hklt]
    exact List.getElem?_mem h1
  have hne : bytesToU64 (msgs.getD (lastWrite msgs.length (v % capacity)) []) ≠ u64Max :=
    bytesToU64_ne_sentinel _ (hok _ hmem)
  have hrt : u64ToBytes (bytesToU64 (msgs.getD (lastWrite msgs.length (v % capacity)) [])) =
      msgs.getD (lastWrite msgs.length (v % capacity)) [] :=
    u64ToBytes_bytesToU64 _ (hok _ hmem).1
  rw [getD_map_bytes msgs _ hklt] at hcore
  rw [mkBuf_eq]
  simp only [SharedReader.pop_front, zig.pop_front_u64, hcore]
  rw [if_neg hne, hrt]

/-- The 510 distinct messages of the C1 counterexample schedule. -/
def cexMsgs : List (List Nat) := (List.range 510).map u64ToBytes

/-- The schedule refuting C1 as stated: 255 pushes, a pop, 255 more pushes,
a pop, then 256 draining pops — every pop is preceded by fewer than
`capacity = 256` pushes since the previous pop (or since the start). -/
def c1ops : List QOp :=
  (cexMsgs.take 255).map QOp.push ++ [QOp.pop] ++
    (cexMsgs.drop 255).map QOp.push ++ [QOp.pop] ++
    List.replicate 256 QOp.pop

/-- The initial state of the C1 counterexample run: a fresh buffer and a
cursor created on it. -/
def c1start : RunState :=
  { buf := RingBuffer.new, cur := RingBuffer.reader RingBuffer.new, outs := [] }

theorem cexMsgs_ok : ∀ m ∈ cexMsgs, okMsg m := by
  intro m hm
  simp only [cexMsgs, List.mem_map, List.mem_range] at hm
  obtain ⟨i, hi, rfl⟩ := hm
  exact okMsg_u64ToBytes i (by simp only [u64Max]; omega)

theorem cexMsgs_length : cexMsgs.length = 510 := by
  simp [cexMsgs]

/-- The final state of the C1 counterexample run: the cursor caught up at
generation 510, and the successful pops being exactly generations 0, 257,
and 258-509. -/
theorem c1run : ∃ outs2,
    runOps c1ops c1start =
      { buf := mkBuf cexMsgs,
        cur := { index := 510, version := 510 }, outs := outs2 } ∧
    outs2.filterMap id =
      [u64ToBytes 0, u64ToBytes 257] ++ cexMsgs.drop 258 := by
  have hok : ∀ m ∈ cexMsgs, okMsg m := cexMsgs_ok
  have hok_take : ∀ m ∈ cexMsgs.take 255, okMsg m :=
    fun m hm => hok m (List.mem_of_mem_take hm)
  have hlen_take : (cexMsgs.take 255).length = 255 := by
    simp [cexMsgs_length]
  have hA : runOps ((cexMsgs.take 255).map QOp.push) c1start =
      { buf := mkBuf (cexMsgs.take 255),
        cur := { index := 0, version := 0 }, outs := [] } := by
    rw [runOps_pushes]
    rfl
  have hpop1 : SharedReader.pop_front (mkBuf (cexMsgs.take 255))
      { index := 0, version := 0 } =
      (some (u64ToBytes 0), { index := 1, version := 1 }) := by
    have h := rust_pop_under (cexMsgs.take 255) 0 (by omega)
      (by rw [hlen_take]; decide) hok_take
    rw [if_pos (by rw [hlen_take]; decide)] at h
    rw [h]
    rfl
  have hB : runOps [QOp.pop]
      { buf := mkBuf (cexMsgs.take 255),
        cur := { index := 0, version := 0 }, outs := [] } =
      { buf := mkBuf (cexMsgs.take 255),
        cur := { index := 1, version := 1 },
        outs := [some (u64ToBytes 0)] } := by
    simp [runOps, runStep, hpop1]
  have hC : runOps ((cexMsgs.drop 255).map QOp.push)
      { buf := mkBuf (cexMsgs.take 255),
        cur := { index := 1, version := 1 },
        outs := [some (u64ToBytes 0)] } =
      { buf := mkBuf cexMsgs,
        cur := { index := 1, version := 1 },
        outs := [some (u64ToBytes 0)] } := by
    rw [runOps_pushes]
    have hfold : (cexMsgs.drop 255).foldl WriteGuard.push_back (mkBuf (cexMsgs.take 255)) =
        mkBuf cexMsgs := by
      rw [← mkBuf_append, List.take_append_drop]
    rw [hfold]
  have hlw : lastWrite cexMsgs.length (1 % capacity) = 257 := by
    rw [cexMsgs_length]
    decide
  have hget257 : cexMsgs.getD 257 [] = u64ToBytes 257 := by
    simp only [cexMsgs, List.getD_eq_getElem?_getD, List.getElem?_map,
      List.getElem?_range (by omega : 257 < 510)]
    rfl
  have hpop2 : SharedReader.pop_front (mkBuf cexMsgs)
      { index := 1, version := 1 } =
      (some (u64ToBytes 257), { index := 258, version := 258 }) := by
    have h := rust_pop_over cexMsgs 1 (by rw [cexMsgs_length]; decide) hok
    rw [hlw, hget257] at h
    exact h
  have hD : runOps [QOp.pop]
      { buf := mkBuf cexMsgs,
        cur := { index := 1, version := 1 },
        outs := [some (u64ToBytes 0)] } =
      { buf := mkBuf cexMsgs,
        cur := { index := 258, version := 258 },
        outs := [some (u64ToBytes 0), some (u64ToBytes 257)] } := by
    simp [runOps, runStep, hpop2]
  obtain ⟨outs2, hdrain, hfm⟩ := run_drain 256 cexMsgs 258
    [some (u64ToBytes 0), some (u64ToBytes 257)]
    (by rw [cexMsgs_length]; omega) (by rw [cexMsgs_length]; decide)
    (by rw [cexMsgs_length]; omega) hok
  refine ⟨outs2, ?_, ?_⟩
  · show runOps c1ops c1start = _
    rw [c1ops, runOps_append, runOps_append, runOps_append, runOps_append,
      hA, hB, hC, hD, hdrain, cexMsgs_length]
  · rw [hfm]
    rfl

theorem u64ToBytes_inj (a b : Nat) (ha : a < 2 ^ 64) (hb : b < 2 ^ 64)
    (h : u64ToBytes a = u64ToBytes b) : a = b := by
  rw [← bytesToU64_u64ToBytes a ha, ← bytesToU64_u64ToBytes b hb, h]

/-- C1 counterexample: the claim "if fewer than `capacity` messages are
pushed between two consecutive pops on a cursor, every pushed message is
returned by that cursor, in push order, with no duplication" fails on the
code. In the schedule `c1ops` every pop is preceded by fewer than 256 pushes
since the previous pop or the start (`gapsOk`), the message `u64ToBytes 1`
is pushed, and the run ends with the cursor fully caught up at generation
510 — every pop from here on returns Empty — yet that message was never
returned by any pop: the per-gap bound does not stop pending messages from
accumulating past `capacity` (509 pending at the second pop), and the
overrun resynchronization silently drops generations 1-256. -/
theorem no_loss_claim_fails :
    gapsOk 0 c1ops = true ∧
    QOp.push (u64ToBytes 1) ∈ c1ops ∧
    (runOps c1ops c1start).cur = { index := 510, version := 510 } ∧
    some (u64ToBytes 1) ∉ (runOps c1ops c1start).outs := by
  obtain ⟨outs2, hrun, hfm⟩ := c1run
  refine ⟨by decide, by decide, by rw [hrun], ?_⟩
  rw [hrun]
  intro hmem
  have h1 : u64ToBytes 1 ∈ outs2.filterMap id :=
    List.mem_filterMap.mpr ⟨some (u64ToBytes 1), hmem, rfl⟩
  rw [hfm] at h1
  have h64 : (510 : Nat) < 2 ^ 64 := by norm_num
  simp only [List.cons_append, List.nil_append, List.mem_cons] at h1
  rcases h1 with h | h | h
  · have := u64ToBytes_inj 1 0 (by omega) (by omega) h
    omega
  · have := u64ToBytes_inj 1 257 (by omega) (by omega) h
    omega
  · rw [cexMsgs, ← List.map_drop] at h
    obtain ⟨i, hi, hieq⟩ := List.mem_map.mp h
    have hir : i < 510 := List.mem_range.mp (List.mem_of_mem_drop hi)
    have : i = 1 := u64ToBytes_inj i 1 (by omega) (by omega) hieq
    subst this
    exact absurd hi (by decide)

/-- C1, amended: if the number of messages pushed but not yet popped never
exceeds `capacity` (rather than the per-gap bound of the original claim),
and every pushed message is transportable (well-formed and not the all-0xFF
value whose `u64` image is the FFI's Empty sentinel), then after draining,
the successful pops of the schedule are exactly the messages pushed after
the cursor's creation, in push order, each exactly once. -/
theorem no_loss_bounded_pending (msgs0 : List (List Nat)) (ops : List QOp)
    (hpend : okPend 0 ops = true)
    (hok0 : ∀ m ∈ msgs0, okMsg m) (hok : ∀ m ∈ pushesOf ops, okMsg m) :
    ((runOps (ops ++ List.replicate capacity QOp.pop)
        { buf := mkBuf msgs0, cur := RingBuffer.reader (mkBuf msgs0),
          outs := [] }).outs).filterMap id = pushesOf ops := by
  have hreader : RingBuffer.reader (mkBuf msgs0) =
      { index := msgs0.length, version := msgs0.length } := by
    simp [RingBuffer.reader, zig.get_reader, mkBuf_eq, bufferAfter_index,
      bufferAfter_version]
  obtain ⟨v2, outs2, h1, h2, h3, h4, h5⟩ :=
    run_window ops msgs0 msgs0.length [] (by simpa using hpend)
      (Nat.le_refl _) (by simp) hok0 hok
  obtain ⟨outs3, h6, h7⟩ := run_drain capacity (msgs0 ++ pushesOf ops) v2 outs2
    (by omega) h3 h3
    (by intro m hm
        rcases List.mem_append.mp hm with h | h
        · exact hok0 m h
        · exact hok m h)
  rw [hreader, runOps_append, h4, h6, h7, h5]
  have hP : (msgs0 ++ pushesOf ops).drop msgs0.length = pushesOf ops :=
    List.drop_left _ _
  have hdd : (msgs0 ++ pushesOf ops).drop v2 =
      ((msgs0 ++ pushesOf ops).drop msgs0.length).drop (v2 - msgs0.length) := by
    rw [List.drop_drop]
    congr 1
    omega
  rw [hdd, hP]
  simp [List.take_append_drop]

/-- Witness for the amended C1 theorem at a concrete schedule: one push of
`[0,1,2,3,4,5,6,7]` followed by one pop, from a cursor created on the empty
buffer. -/
theorem no_loss_bounded_pending_w :
    ((runOps ([QOp.push msgA, QOp.pop] ++ List.replicate capacity QOp.pop)
        { buf := mkBuf [], cur := RingBuffer.reader (mkBuf []),
          outs := [] }).outs).filterMap id = pushesOf [QOp.push msgA, QOp.pop] :=
  no_loss_bounded_pending [] [QOp.push msgA, QOp.pop] (by decide)
    (by intro m hm; simp at hm) (by decide)

/-- C2 counterexample: the claim "pop_front returns Empty if and only if no
unseen message exists yet for that cursor" fails on the code. Push the
single message `[255,255,255,255,255,255,255,255]` and pop with a fresh
cursor created on the empty buffer: one unseen, un-overrun message exists
(buffer generation 1, cursor generation 0), yet `pop_front` returns `None`,
because the message's `u64` image collides with the `u64::MAX` Empty
sentinel of lib.rs line 227. -/
theorem empty_iff_claim_fails :
    (mkBuf [List.replicate 8 255]).version = 1 ∧
    (RingBuffer.reader RingBuffer.new).version = 0 ∧
    (SharedReader.pop_front (mkBuf [List.replicate 8 255])
      (RingBuffer.reader RingBuffer.new)).1 = none := by
  decide

/-- C2, amended: for a synced cursor on a buffer whose pushed messages are
all transportable (well-formed and not the all-0xFF sentinel image),
`pop_front` returns Empty exactly when the cursor has consumed every
published generation — including the overrun regime, where it returns a
message rather than Empty. -/
theorem empty_iff_consumed (msgs : List (List Nat)) (v : Nat)
    (hv : v ≤ msgs.length) (hok : ∀ m ∈ msgs, okMsg m) :
    ((SharedReader.pop_front (mkBuf msgs) { index := v, version := v }).1 = none ↔
      v = msgs.length) := by
  by_cases hc : msgs.length - v ≤ capacity
  · have h := rust_pop_under msgs v hv hc hok
    by_cases hvn : v < msgs.length
    · rw [if_pos hvn] at h
      rw [h]
      simp
      omega
    · rw [if_neg hvn] at h
      rw [h]
      simp
      omega
  · have h := rust_pop_over msgs v (by omega) hok
    rw [h]
    simp
    omega

/-- Witness for the amended C2 theorem: a fresh cursor on a buffer holding
one message pops non-Empty. -/
theorem empty_iff_consumed_w :
    ((SharedReader.pop_front (mkBuf [msgA]) { index := 0, version := 0 }).1 = none ↔
      0 = [msgA].length) :=
  empty_iff_consumed [msgA] 0 (by decide) (by decide)

/-- The 257 all-0xFF messages of the C5 counterexample. -/
def sentinelMsgs : List (List Nat) := List.replicate 257 (List.replicate 8 255)

/-- C5 counterexample: the claim "the next pop after more than capacity
un-popped pushes returns a message no older than the most recent capacity
pushes" fails on the code. After 257 pushes of the all-0xFF message and no
pop, the next pop on a fresh cursor returns Empty, not a message: the
resynchronized slot payload's `u64` image is the Empty sentinel, so the
recovered message is dropped and reported as `None` (while the cursor still
advances). -/
theorem overrun_claim_fails :
    capacity < sentinelMsgs.length ∧
    (SharedReader.pop_front (mkBuf sentinelMsgs)
      { index := 0, version := 0 }).1 = none := by
  decide

/-- C5, amended: for a synced cursor more than `capacity` generations behind
on a buffer of transportable messages, `pop_front` resynchronizes — the
observed stamp `k + 1` makes it set `expectedGeneration` to `k` and claim
that slot, ending at generation `k + 1` — and returns the message of some
generation `k` no older than the most recent `capacity` pushes. Overrun is
never surfaced as a distinct outcome: the result is an ordinary message. -/
theorem overrun_resync (msgs : List (List Nat)) (v : Nat)
    (hc : capacity < msgs.length - v) (hok : ∀ m ∈ msgs, okMsg m) :
    ∃ k, msgs.length - capacity ≤ k ∧ k < msgs.length ∧ v < k ∧
      SharedReader.pop_front (mkBuf msgs) { index := v, version := v } =
        (some (msgs.getD k []), { index := k + 1, version := k + 1 }) := by
  refine ⟨lastWrite msgs.length (v % capacity), ?_, ?_, ?_,
    rust_pop_over msgs v hc hok⟩ <;>
    simp only [lastWrite, capacity] at hc ⊢ <;> omega

/-- Witness for the amended C5 theorem: 257 distinct messages pushed, none
popped; the fresh cursor's pop is an overrun pop. -/
theorem overrun_resync_w :
    ∃ k, ((List.range 257).map u64ToBytes).length - capacity ≤ k ∧
      k < ((List.range 257).map u64ToBytes).length ∧ 0 < k ∧
      SharedReader.pop_front (mkBuf ((List.range 257).map u64ToBytes))
          { index := 0, version := 0 } =
        ((some (((List.range 257).map u64ToBytes).getD k [])),
          { index := k + 1, version := k + 1 }) :=
  overrun_resync ((List.range 257).map u64ToBytes) 0
    (by simp)
    (by intro m hm
        simp only [List.mem_map, List.mem_range] at hm
        obtain ⟨i, hi, rfl⟩ := hm
        exact okMsg_u64ToBytes i (by simp only [u64Max]; omega))

/-- C7 counterexample: the claim "when pop_front returns Empty the cursor is
unchanged" fails on the code. Popping the pushed all-0xFF message returns
`None` — its `u64` image is the Empty sentinel — yet the cursor advances
from generation 0 to generation 1. -/
theorem empty_frame_claim_fails :
    SharedReader.pop_front (mkBuf [List.replicate 8 255])
        { index := 0, version := 0 } =
      (none, { index := 1, version := 1 }) ∧
    ({ index := 1, version := 1 } : SharedReader) ≠ { index := 0, version := 0 } := by
  decide

theorem zig_pop_none_frame (rb : RingBuffer) (sr sr2 : SharedReader)
    (h : zig.pop_front rb sr = (none, sr2)) : sr2 = sr := by
  simp only [zig.pop_front] at h
  split at h
  · simp at h
  · split at h
    · simp only [Prod.mk.injEq] at h
      exact h.2.symm
    · simp at h

theorem zig_pop_some_stamped (rb : RingBuffer) (sr : SharedReader) (x : Nat)
    (sr2 : SharedReader) (h : zig.pop_front rb sr = (some x, sr2)) :
    x = (rb.data.getD (sr.index % capacity) { version := 0, message := 0 }).message ∧
    1 ≤ (rb.data.getD (sr.index % capacity) { version := 0, message := 0 }).version := by
  simp only [zig.pop_front] at h
  split at h
  · rename_i heq
    simp only [Prod.mk.injEq, Option.some.injEq] at h
    exact ⟨h.1.symm, by omega⟩
  · split at h
    · simp at h
    · rename_i hne hgt
      simp only [Prod.mk.injEq, Option.some.injEq] at h
      exact ⟨h.1.symm, by omega⟩

/-- C7, amended: on a buffer of transportable messages, whenever `pop_front`
returns Empty because no new data is stamped for the cursor, the cursor is
left exactly as it was. (The buffer itself is never written by a pop: in
this embedding `pop_front` does not produce a buffer at all, mirroring the
algorithm, which only reads slots.) The amendment excludes the all-0xFF
payload, for which the code returns Empty while still advancing the
cursor. -/
theorem empty_pop_no_effect (msgs : List (List Nat)) (sr : SharedReader)
    (hok : ∀ m ∈ msgs, okMsg m)
    (h : (SharedReader.pop_front (mkBuf msgs) sr).1 = none) :
    (SharedReader.pop_front (mkBuf msgs) sr).2 = sr := by
  rcases hzig : zig.pop_front (bufferAfter (msgs.map bytesToU64)) sr with ⟨o, sr2⟩
  cases o with
  | none =>
    have hsr := zig_pop_none_frame _ _ _ hzig
    simp only [SharedReader.pop_front, zig.pop_front_u64, mkBuf_eq, hzig]
    simpa using hsr
  | some x =>
    exfalso
    obtain ⟨hx, hstamp⟩ := zig_pop_some_stamped _ _ _ _ hzig
    have hj : sr.index % capacity < capacity := Nat.mod_lt _ (by decide)
    have hs := bufferAfter_slot (msgs.map bytesToU64) (sr.index % capacity) hj
    by_cases hwr : sr.index % capacity < (msgs.map bytesToU64).length
    · rw [hs, if_pos hwr] at hx hstamp
      set k := lastWrite (List.map bytesToU64 msgs).length (sr.index % capacity) with hk
      have hklt : k < msgs.length := by
        simp only [hk, lastWrite, capacity, List.length_map] at hwr ⊢
        omega
      have hxv : x = bytesToU64 (msgs.getD k []) := by
        rw [hx]
        exact getD_map_bytes msgs k hklt
      have hmem : msgs.getD k [] ∈ msgs := by
        have h1 : msgs[k]? = some (msgs.getD k []) := by
          simp [List.getD_eq_getElem?_getD, List.getElem?_eq_getElem hklt]
        exact List.getElem?_mem h1
      have hne : x ≠ u64Max := hxv ▸ bytesToU64_ne_sentinel _ (hok _ hmem)
      simp only [SharedReader.pop_front, zig.pop_front_u64, mkBuf_eq, hzig] at h
      rw [if_neg hne] at h
      simp at h
    · rw [hs, if_neg hwr] at hstamp
      simp at hstamp
/-- Witness for the amended C7 theorem: a cursor already past the single
pushed message pops Empty and stays at generation 5. -/
theorem empty_pop_no_effect_w :
    (SharedReader.pop_front (mkBuf [msgA]) { index := 5, version := 5 }).2 =
      { index := 5, version := 5 } :=
  empty_pop_no_effect [msgA] { index := 5, version := 5 } (by decide) (by decide)

/-- C3: lock arbitration. If `try_lock` hands out a guard (the locked buffer
state), any further `try_lock` while that guard is outstanding returns the
`AlreadyLocked` error, and as soon as the guard is dropped (`drop_wg`, the
Zig side of `Drop for WriteGuard`), the next `try_lock` succeeds again. -/
theorem try_lock_exclusive (rb rb2 : RingBuffer)
    (h : RingBuffer.try_lock rb = Except.ok rb2) :
    rb2.locked = true ∧
    RingBuffer.try_lock rb2 = Except.error () ∧
    RingBuffer.try_lock (zig.drop_wg rb2) =
      Except.ok { rb2 with locked := true } := by
  rcases hlb : zig.lock_buffer rb with _ | rb3
  · simp only [RingBuffer.try_lock, hlb] at h
    exact absurd h (by simp)
  · simp only [RingBuffer.try_lock, hlb, Except.ok.injEq] at h
    subst h
    simp only [zig.lock_buffer] at hlb
    split at hlb
    · simp at hlb
    · simp only [Option.some.injEq] at hlb
      subst hlb
      refine ⟨rfl, ?_, ?_⟩
      · simp [RingBuffer.try_lock, zig.lock_buffer]
      · simp [RingBuffer.try_lock, zig.lock_buffer, zig.drop_wg]

/-- Witness for C3 at the fresh buffer. -/
theorem try_lock_exclusive_w :
    ({ RingBuffer.new with locked := true } : RingBuffer).locked = true ∧
    RingBuffer.try_lock { RingBuffer.new with locked := true } = Except.error () ∧
    RingBuffer.try_lock (zig.drop_wg { RingBuffer.new with locked := true }) =
      Except.ok { ({ RingBuffer.new with locked := true } : RingBuffer) with
        locked := true } :=
  try_lock_exclusive RingBuffer.new { RingBuffer.new with locked := true } (by rfl)

/-- C6: a committed `push_back` increments the write cursor and the
generation by exactly one, leaves the lock flag alone, stores the stamp
`generation + 1` together with the payload into slot
`writeCursor mod capacity`, leaves every other slot unchanged, and the
lockstep invariant `generation = number of appends performed` holds on every
reachable buffer. (The payload-before-stamp release ordering inside one
append is a memory-barrier fact with no counterpart in this sequential
embedding, where the two stores commit as one step.) -/
theorem push_back_commit (rb : RingBuffer) (m : List Nat)
    (hlen : rb.data.length = capacity) :
    (WriteGuard.push_back rb m).index = rb.index + 1 ∧
    (WriteGuard.push_back rb m).version = rb.version + 1 ∧
    (WriteGuard.push_back rb m).locked = rb.locked ∧
    (WriteGuard.push_back rb m).data.getD (rb.index % capacity)
        { version := 0, message := 0 } =
      { version := rb.version + 1, message := bytesToU64 m } ∧
    (∀ j, j < capacity → j ≠ rb.index % capacity →
      (WriteGuard.push_back rb m).data.getD j { version := 0, message := 0 } =
        rb.data.getD j { version := 0, message := 0 }) ∧
    (∀ M : List Nat, (bufferAfter M).version = M.length) := by
  refine ⟨rfl, rfl, rfl, ?_, ?_, bufferAfter_version⟩
  · simp [WriteGuard.push_back, zig.push_back, List.getD_eq_getElem?_getD,
      List.getElem?_set_self
        (by rw [hlen]; exact Nat.mod_lt _ (by decide) :
          rb.index % capacity < rb.data.length)]
  · intro j hj hne
    simp [WriteGuard.push_back, zig.push_back, List.getD_eq_getElem?_getD,
      List.getElem?_set_ne (fun hh => hne hh.symm)]

/-- Witness for C6 at the fresh buffer and the message `[0,1,2,3,4,5,6,7]`. -/
theorem push_back_commit_w :
    (WriteGuard.push_back RingBuffer.new msgA).index = RingBuffer.new.index + 1 ∧
    (WriteGuard.push_back RingBuffer.new msgA).version = RingBuffer.new.version + 1 ∧
    (WriteGuard.push_back RingBuffer.new msgA).locked = RingBuffer.new.locked ∧
    (WriteGuard.push_back RingBuffer.new msgA).data.getD
        (RingBuffer.new.index % capacity) { version := 0, message := 0 } =
      { version := RingBuffer.new.version + 1, message := bytesToU64 msgA } ∧
    (∀ j, j < capacity → j ≠ RingBuffer.new.index % capacity →
      (WriteGuard.push_back RingBuffer.new msgA).data.getD j
          { version := 0, message := 0 } =
        RingBuffer.new.data.getD j { version := 0, message := 0 }) ∧
    (∀ M : List Nat, (bufferAfter M).version = M.length) :=
  push_back_commit RingBuffer.new msgA (by decide)

/-- One pop from a cursor at or past generation `length msgs0`, on a buffer
whose first `length msgs0` appends happened before the cursor existed: the
cursor never moves backwards, and any returned message is one of the later
appends `msgs1`. -/
theorem pop_from_ge (msgs0 msgs1 : List (List Nat)) (v : Nat)
    (hv : msgs0.length ≤ v) (hok1 : ∀ m ∈ msgs1, validMsg m) :
    ∃ v2, v ≤ v2 ∧
      (SharedReader.pop_front (mkBuf (msgs0 ++ msgs1))
          { index := v, version := v }).2 = { index := v2, version := v2 } ∧
      ∀ bs, (SharedReader.pop_front (mkBuf (msgs0 ++ msgs1))
          { index := v, version := v }).1 = some bs →
        ∃ i, i < msgs1.length ∧ bs = msgs1.getD i [] := by
  have hcase := pop_cases ((msgs0 ++ msgs1).map bytesToU64) v
  rcases hzig : zig.pop_front (bufferAfter ((msgs0 ++ msgs1).map bytesToU64))
      { index := v, version := v } with ⟨o, sr2⟩
  cases o with
  | none =>
    have hsr := hcase.2 sr2 hzig
    refine ⟨v, Nat.le_refl v, ?_, ?_⟩
    · simp only [SharedReader.pop_front, zig.pop_front_u64, mkBuf_eq, hzig]
      simp [hsr]
    · intro bs hbs
      simp only [SharedReader.pop_front, zig.pop_front_u64, mkBuf_eq, hzig] at hbs
      simp at hbs
  | some x =>
    obtain ⟨i, hiv, hiM, hx, hsr2⟩ := hcase.1 x sr2 hzig
    rw [List.length_map] at hiM
    have h0 : msgs0.length ≤ i := Nat.le_trans hv hiv
    have hgi : (msgs0 ++ msgs1).getD i [] = msgs1.getD (i - msgs0.length) [] := by
      simp [List.getD_eq_getElem?_getD, List.getElem?_append_right h0]
    have hile : i - msgs0.length < msgs1.length := by
      rw [List.length_append] at hiM
      omega
    by_cases hmax : x = u64Max
    · refine ⟨i + 1, by omega, ?_, ?_⟩
      · simp only [SharedReader.pop_front, zig.pop_front_u64, mkBuf_eq, hzig]
        rw [if_pos hmax]
        exact hsr2
      · intro bs hbs
        simp only [SharedReader.pop_front, zig.pop_front_u64, mkBuf_eq, hzig] at hbs
        rw [if_pos hmax] at hbs
        simp at hbs
    · refine ⟨i + 1, by omega, ?_, ?_⟩
      · simp only [SharedReader.pop_front, zig.pop_front_u64, mkBuf_eq, hzig]
        rw [if_neg hmax]
        exact hsr2
      · intro bs hbs
        simp only [SharedReader.pop_front, zig.pop_front_u64, mkBuf_eq, hzig] at hbs
        rw [if_neg hmax] at hbs
        simp only [Option.some.injEq] at hbs
        refine ⟨i - msgs0.length, hile, ?_⟩
        have hmem : msgs1.getD (i - msgs0.length) [] ∈ msgs1 := by
          have h1 : msgs1[i - msgs0.length]? =
              some (msgs1.getD (i - msgs0.length) []) := by
            simp [List.getD_eq_getElem?_getD, List.getElem?_eq_getElem hile]
          exact List.getElem?_mem h1
        rw [← hbs, hx, getD_map_bytes _ _ hiM, hgi,
          u64ToBytes_bytesToU64 _ (hok1 _ hmem)]

/-- C8: a cursor created by `reader` starts at the buffer's current
generation, and every message any later pop returns is one of the messages
appended after its creation — never one of the `msgs0` appended before. -/
theorem reader_sees_only_later (msgs0 msgs1 : List (List Nat)) (k : Nat)
    (hok1 : ∀ m ∈ msgs1, validMsg m) :
    (RingBuffer.reader (mkBuf msgs0)).version = (mkBuf msgs0).version ∧
    ∀ o ∈ (popN (mkBuf (msgs0 ++ msgs1)) (RingBuffer.reader (mkBuf msgs0)) k).1,
      ∀ bs, o = some bs → ∃ i, i < msgs1.length ∧ bs = msgs1.getD i [] := by
  refine ⟨rfl, ?_⟩
  have hreader : RingBuffer.reader (mkBuf msgs0) =
      { index := msgs0.length, version := msgs0.length } := by
    simp [RingBuffer.reader, zig.get_reader, mkBuf_eq, bufferAfter_index,
      bufferAfter_version]
  rw [hreader]
  have aux : ∀ n v, msgs0.length ≤ v →
      ∀ o ∈ (popN (mkBuf (msgs0 ++ msgs1)) { index := v, version := v } n).1,
        ∀ bs, o = some bs → ∃ i, i < msgs1.length ∧ bs = msgs1.getD i [] := by
    intro n
    induction n with
    | zero =>
      intro v _ o ho
      simp [popN] at ho
    | succ n ih =>
      intro v hvge o ho bs hbs
      obtain ⟨v2, hle2, hcur2, hsome⟩ := pop_from_ge msgs0 msgs1 v hvge hok1
      simp only [popN, List.mem_cons] at ho
      rcases ho with ho | ho
      · subst hbs
        exact hsome bs (by rw [← ho])
      · rw [hcur2] at ho
        exact ih v2 (Nat.le_trans hvge hle2) o ho bs hbs
  exact aux k msgs0.length (Nat.le_refl _)

/-- Witness for C8: a cursor created after `[0,1,2,3,4,5,6,7]` was pushed,
popping three times after `[0,1,2,3,4,5,6,14]` was pushed, only ever
returns the later message. -/
theorem reader_sees_only_later_w :
    (RingBuffer.reader (mkBuf [msgA])).version = (mkBuf [msgA]).version ∧
    ∀ o ∈ (popN (mkBuf ([msgA] ++ [msgC])) (RingBuffer.reader (mkBuf [msgA])) 3).1,
      ∀ bs, o = some bs → ∃ i, i < [msgC].length ∧ bs = [msgC].getD i [] :=
  reader_sees_only_later [msgA] [msgC] 3 (by decide)
